import Mathlib

/-!
Shallow embedding of the tube-cache core (src/app/models.py, database.py,
queue.py, storage.py, api.py) and verification of the frozen claims about it.

Conventions of the embedding:
* The SQLite `videos` table is a `List VideoRow`, one entry per physical row,
  in rowid (insertion) order.  Column `NULL` is `Option.none`; the `status`
  TEXT column holds exactly the five values of the python `VideoStatus` enum,
  modelled by the inductive `VideoStatus`.
* Timestamps are naturals (opaque tick values); byte sizes are naturals in
  rows and `Int` in the running counter of the eviction loop, matching
  python's unbounded integers.
* The filesystem directory of downloaded artifacts is a `List String` of the
  hashes that currently have a file on disk (`_find_video_file` succeeds
  exactly on members).
* The float expression `max_size_bytes * (1 - target_free_space / 100)` of
  `storage.py` is modelled exactly: every intermediate value is rounded to
  the nearest IEEE-754 double (ties to even) and carried as an exact dyadic
  pair m * 2 ^ e over `Int`, and the int used size is compared against the
  double target exactly, as python compares int to float.  Inputs beyond
  the finite double range (quotas of 2 ^ 1024 bytes and more, where python
  raises OverflowError) are outside the model.
* A `last_accessed` column is NULL until the first access and afterwards
  holds the TEXT timestamp written by CURRENT_TIMESTAMP.  The model writes
  `none` for NULL and `some n` for a TEXT value of chronological rank n:
  the stored strings have one fixed format, so their lexicographic TEXT
  order is exactly the order of the ranks.  The python sort key
  `x.get("last_accessed", 0) or 0` of cleanup_old_videos therefore yields
  the int 0 on a NULL and a str on everything else, and comparing an int
  with a str raises TypeError, which the surrounding `except` turns into
  an aborted pass.
-/

namespace TubeCache

set_option maxRecDepth 40000

/-- Status enum of models.py (`VideoStatus`), stored as TEXT in the DB. -/
inductive VideoStatus where
  | pending
  | downloading
  | ready
  | failed
  | deleted
deriving DecidableEq, Repr

/-- One row of the `videos` table, columns of CREATE_VIDEOS_TABLE_SQL. -/
structure VideoRow where
  hash : String
  source_url : String
  title : Option String
  file_size : Option Nat
  last_accessed : Option Nat
  access_count : Nat
  status : VideoStatus
  created_at : Nat
  duration : Option Nat
  uploader : Option String
  file_ext : Option String
deriving DecidableEq, Repr

/-- Column names of CREATE_VIDEOS_TABLE_SQL in models.py, in declaration
order.  Note that there is no retry-count column. -/
def tableColumns : List String :=
  ["hash", "source_url", "title", "file_size", "last_accessed",
   "access_count", "status", "created_at", "duration", "uploader", "file_ext"]

/-- The videos table. -/
abbrev Table := List VideoRow

/-- Existence test on the primary key, used by the WHERE clauses. -/
def hashPresent (t : Table) (h : String) : Bool :=
  t.any fun r => r.hash == h

/-- Row created by SQL_QUERIES.insert_video: explicit hash, source_url,
status, created_at; every other column takes its schema default. -/
def freshRow (h url : String) (now : Nat) : VideoRow :=
  { hash := h, source_url := url, title := none, file_size := none,
    last_accessed := none, access_count := 0, status := .pending,
    created_at := now, duration := none, uploader := none, file_ext := none }

/-- SQL_QUERIES.insert_video: INSERT OR IGNORE keyed on the hash primary key.
Returns the new table and the statement rowcount. -/
def insert_video (t : Table) (h url : String) (now : Nat) : Table × Nat :=
  if hashPresent t h then (t, 0) else (t ++ [freshRow h url now], 1)

/-- Database.create_video: runs insert_video and reports rowcount > 0. -/
def create_video (t : Table) (h url : String) (now : Nat) : Table × Bool :=
  let res := insert_video t h url now
  (res.1, decide (0 < res.2))

/-- SQL_QUERIES.update_status wrapped by Database.update_status: sets the
status of the row with the given hash; flag is rowcount > 0. -/
def update_status (t : Table) (h : String) (s : VideoStatus) : Table × Bool :=
  (t.map fun r => if r.hash == h then { r with status := s } else r,
   hashPresent t h)

/-- SQL_QUERIES.update_on_download wrapped by Database.update_video_on_download:
sets title, file_size, status = ready, duration, uploader, file_ext. -/
def update_video_on_download (t : Table) (h : String) (title : Option String)
    (fs : Option Nat) (dur : Option Nat) (upl : Option String)
    (ext : Option String) : Table × Bool :=
  (t.map fun r =>
    if r.hash == h then
      { r with title := title, file_size := fs, status := .ready,
               duration := dur, uploader := upl, file_ext := ext }
    else r,
   hashPresent t h)

/-- SQL_QUERIES.mark_deleted wrapped by Database.mark_video_deleted: sets
status = deleted and clears file_size and file_ext of the matching row;
no row is ever removed. -/
def mark_video_deleted (t : Table) (h : String) : Table × Bool :=
  (t.map fun r =>
    if r.hash == h then
      { r with status := .deleted, file_size := none, file_ext := none }
    else r,
   hashPresent t h)

/-- Stable insertion of an element into a list already sorted by `le`,
placing it before the first strictly larger element (python/SQLite sorts
are stable, ties keep input order). -/
def insSorted (le : α → α → Bool) (x : α) : List α → List α
  | [] => [x]
  | y :: ys => if le x y then x :: y :: ys else y :: insSorted le x ys

/-- Stable ascending sort, the order produced by ORDER BY and list.sort. -/
def stableSort (le : α → α → Bool) : List α → List α
  | [] => []
  | x :: xs => insSorted le x (stableSort le xs)

/-- SQLite ORDER BY last_accessed comparison: NULL sorts before every
value. -/
def sqliteLaLe (a b : VideoRow) : Bool :=
  match a.last_accessed, b.last_accessed with
  | none, _ => true
  | some _, none => false
  | some x, some y => x ≤ y

/-- SQL_QUERIES.get_all_ready wrapped by Database.get_all_ready_videos:
SELECT rows WHERE status = ready AND file_size IS NOT NULL
ORDER BY last_accessed. -/
def get_all_ready (t : Table) : Table :=
  stableSort sqliteLaLe
    (t.filter fun r => decide (r.status = .ready) && r.file_size.isSome)

/-- Database.get_pending_videos: rows WHERE status IN (pending, downloading)
ORDER BY created_at. -/
def get_pending_videos (t : Table) : Table :=
  stableSort (fun a b => a.created_at ≤ b.created_at)
    (t.filter fun r =>
      decide (r.status = .pending) || decide (r.status = .downloading))

/-! ## Task queue (queue.py) -/

/-- DownloadTask dataclass of queue.py.  The added_at timestamp is carried
but never read by any queue operation. -/
structure DownloadTask where
  video_hash : String
  url : String
  added_at : Nat := 0
  retry_count : Nat := 0
  max_retries : Nat := 3
deriving DecidableEq, Repr

/-- Lifecycle of one entry of the `_task_futures` dict (an asyncio.Future):
it starts pending and is settled at most once. -/
inductive FutureState where
  | pending
  | resolvedOk
  | resolvedErr
  | cancelled
deriving DecidableEq, Repr

/-- Observable operations performed on a task future by `_process_task`. -/
inductive FutureEvent where
  | setResult
  | setException
  | cancelFuture
deriving DecidableEq, Repr

/-- In-memory state of TaskQueue: the FIFO `_queue`, the `_active_tasks`
set, the key set of the `_task_cache` dict (its values are never read by
any operation, so only the keys are modelled), and the `_task_futures`
dict.  The cache and futures dicts always acquire and lose keys together,
so their key lists are duplicate-free. -/
structure QueueState where
  queue : List DownloadTask
  active : List String
  cache : List String
  futures : List (String × FutureState)
deriving DecidableEq, Repr

/-- Queue state at TaskQueue construction. -/
def emptyQueue : QueueState :=
  { queue := [], active := [], cache := [], futures := [] }

/-- TaskQueue.add_task: rejects when the hash is a key of `_task_cache`;
otherwise appends a fresh task to the queue tail, registers it in the
cache, and creates a pending future. -/
def add_task (qs : QueueState) (h url : String) : Bool × QueueState :=
  if qs.cache.contains h then (false, qs)
  else
    (true,
     { queue := qs.queue ++ [{ video_hash := h, url := url }],
       active := qs.active,
       cache := qs.cache ++ [h],
       futures := qs.futures ++ [(h, .pending)] })

/-- TaskQueue._get_next_task: pops the queue head and adds its hash to the
active set. -/
def get_next_task (qs : QueueState) : Option DownloadTask × QueueState :=
  match qs.queue with
  | [] => (none, qs)
  | task :: rest =>
      (some task,
       { qs with queue := rest, active := qs.active ++ [task.video_hash] })

/-- Settle the future stored under key h, when present. -/
def setFuture (fs : List (String × FutureState)) (h : String)
    (v : FutureState) : List (String × FutureState) :=
  fs.map fun p => if p.1 == h then (p.1, v) else p

/-- Metadata dict returned by VideoDownloader.download on success. -/
structure FetchResult where
  title : Option String
  file_size : Option Nat
  duration : Option Nat
  uploader : Option String
  file_ext : Option String
deriving DecidableEq, Repr

/-- Except-branch of TaskQueue._process_task: increment the task's retry
counter; below max_retries re-append the task to the queue tail, otherwise
set the catalog status to failed and resolve the future (when still
registered) with the exception. -/
def processFailure (task : DownloadTask) (t : Table) (qs : QueueState) :
    Table × QueueState × List FutureEvent :=
  let task2 := { task with retry_count := task.retry_count + 1 }
  if task2.retry_count < task2.max_retries then
    (t, { qs with queue := qs.queue ++ [task2] }, [])
  else
    let t2 := (update_status t task.video_hash .failed).1
    match (qs.futures.lookup task.video_hash) with
    | some _ =>
        (t2, { qs with futures := setFuture qs.futures task.video_hash .resolvedErr },
         [.setException])
    | none => (t2, qs, [])

/-- Finally-block of TaskQueue._process_task: always discards the hash from
the active set, deletes its `_task_cache` entry, and — after cancelling it
when still unsettled — deletes its future. -/
def processCleanup (h : String) (qs : QueueState) :
    QueueState × List FutureEvent :=
  let act := qs.active.erase h
  let cac := qs.cache.erase h
  match qs.futures.lookup h with
  | none => ({ qs with active := act, cache := cac }, [])
  | some st =>
      ({ queue := qs.queue, active := act, cache := cac,
         futures := qs.futures.filter fun p => p.1 != h },
       if st = .pending then [.cancelFuture] else [])

/-- TaskQueue._process_task on one task.  `downloadOk` tells whether the
downloader call returned normally (any exception, including the one raised
when the DB update reports no row, takes the except branch); `res` is the
metadata of a successful download.  Returns the new table, the new queue
state, and the future operations performed, in order. -/
def process_task (downloadOk : Bool) (res : FetchResult)
    (task : DownloadTask) (t : Table) (qs : QueueState) :
    Table × QueueState × List FutureEvent :=
  let h := task.video_hash
  let t1 := (update_status t h .downloading).1
  let body : Table × QueueState × List FutureEvent :=
    if downloadOk then
      let upd := update_video_on_download t1 h res.title res.file_size
        res.duration res.uploader res.file_ext
      if upd.2 then
        match upd.1, (qs.futures.lookup h) with
        | t2, some _ =>
            (t2, { qs with futures := setFuture qs.futures h .resolvedOk },
             [.setResult])
        | t2, none => (t2, qs, [])
      else processFailure task upd.1 qs
    else processFailure task t1 qs
  let fin := processCleanup h body.2.1
  (body.1, fin.1, body.2.2 ++ fin.2)

/-- One worker iteration: pull the next task and process it with the given
download outcome.  When the queue is empty nothing happens. -/
def runOneTask (downloadOk : Bool) (res : FetchResult) (t : Table)
    (qs : QueueState) : Table × QueueState × List FutureEvent :=
  match get_next_task qs with
  | (none, qs1) => (t, qs1, [])
  | (some task, qs1) => process_task downloadOk res task t qs1

/-- Body of one iteration of TaskQueue._monitor_loop: under the lock it
only reads the queue and active counts and, when either is nonempty, emits
a log line.  It mutates nothing.  It reads no clock and no per-task
timestamps. -/
def monitor_step (qs : QueueState) : QueueState × Bool :=
  (qs, !qs.queue.isEmpty || !qs.active.isEmpty)

/-- Loop body of TaskQueue._restore_pending_tasks over the rows returned by
get_pending_videos: reset the row's status to pending, then add_task, and
count the row when both the update and the add report success. -/
def restoreLoop (rows : List VideoRow) (t : Table) (qs : QueueState) :
    Nat × Table × QueueState :=
  match rows with
  | [] => (0, t, qs)
  | v :: rest =>
      let upd := update_status t v.hash .pending
      if upd.2 then
        let added := add_task qs v.hash v.source_url
        let res := restoreLoop rest upd.1 added.2
        (if added.1 then res.1 + 1 else res.1, res.2)
      else
        let res := restoreLoop rest upd.1 qs
        (res.1, res.2)

/-- TaskQueue._restore_pending_tasks: fetch all pending/downloading rows and
run the restore loop over them. -/
def restore_pending_tasks (t : Table) (qs : QueueState) :
    Nat × Table × QueueState :=
  restoreLoop (get_pending_videos t) t qs

/-! ## Storage lifecycle (storage.py) -/

/-- Bit length of a natural number, by fuel-bounded structural recursion;
the fuel covers every value below 2 ^ 20000, far beyond the finite double
range within which the float model is meaningful. -/
def bitLen : Nat → Nat → Nat
  | 0, _ => 0
  | fuel+1, n => if n = 0 then 0 else bitLen fuel (n / 2) + 1

/-- Nearest IEEE-754 double to the positive rational p / q, round to
nearest with ties to even, returned as an exact dyadic pair (m, e) of
value m * 2 ^ e.  The quotient is computed with at least 54 significant
bits and rounded to 53 with a sticky remainder, which is the binary64
rounding for values in the normal range. -/
def flQuot (p q : Nat) : Int × Int :=
  let lp := bitLen 20000 p
  let lq := bitLen 20000 q
  let s : Int := 55 + (lq : Int) - (lp : Int)
  let pn := if 0 ≤ s then p * 2 ^ s.toNat else p
  let qn := if 0 ≤ s then q else q * 2 ^ (-s).toNat
  let n0 := pn / qn
  let r := pn % qn
  let l0 := bitLen 20000 n0
  if l0 ≤ 53 then ((n0 : Int), -s)
  else
    let d := l0 - 53
    let m0 := n0 / 2 ^ d
    let rem2 := n0 % 2 ^ d
    let half := 2 ^ (d - 1)
    let up := decide (half < rem2) ||
      (decide (rem2 = half) && (decide (r ≠ 0) || decide (m0 % 2 = 1)))
    (((if up then m0 + 1 else m0) : Nat), (d : Int) - s)

/-- Nearest double to the exact dyadic value m * 2 ^ e. -/
def flDyadic (m : Int) (e : Int) : Int × Int :=
  if m = 0 then (0, 0)
  else
    let r := if 0 ≤ e then flQuot (m.natAbs * 2 ^ e.toNat) 1
             else flQuot m.natAbs (2 ^ (-e).toNat)
    if m < 0 then (-r.1, r.2) else r

/-- The float `target_size = max_size_bytes * (1 - target_free_space / 100)`
of cleanup_old_videos, evaluated step by step in double precision exactly
as python evaluates it — tf / 100, then 1 minus that, then max times
that, each correctly rounded — and returned as an exact dyadic pair. -/
def targetDyadic (maxSize tf : Nat) : Int × Int :=
  let x1 := if tf = 0 then ((0 : Int), (0 : Int)) else flQuot tf 100
  let om : Int × Int :=
    if 0 ≤ x1.2 then (1 - x1.1 * 2 ^ x1.2.toNat, 0)
    else (2 ^ (-x1.2).toNat - x1.1, x1.2)
  let x2 := flDyadic om.1 om.2
  let xm := flDyadic (maxSize : Int) 0
  flDyadic (xm.1 * x2.1) (xm.2 + x2.2)

/-- Comparison `current_size <= target_size` of cleanup_old_videos: python
compares the exact int against the double exactly, and so does the
model. -/
def leTarget (maxSize tf : Nat) (current : Int) : Bool :=
  let t := targetDyadic maxSize tf
  if 0 ≤ t.2 then decide (current ≤ t.1 * 2 ^ t.2.toNat)
  else decide (current * 2 ^ (-t.2).toNat ≤ t.1)

/-- Python `sum(v.get("file_size", 0) for v in videos)`. -/
def sumSizes (l : List VideoRow) : Int :=
  (l.map fun r => ((r.file_size.getD 0 : Nat) : Int)).sum

/-- Python evaluation of `key(a) <= key(b)` for the cleanup sort key
`x.get("last_accessed", 0) or 0`: a NULL yields the int 0 and an accessed
row yields its TEXT timestamp, so two NULLs compare as equal ints, two
timestamps compare lexicographically — chronologically, on the fixed
format — and a NULL against a timestamp raises TypeError (none). -/
def pyKeyLe : Option Nat → Option Nat → Option Bool
  | none, none => some true
  | some a, some b => some (decide (a ≤ b))
  | none, some _ => none
  | some _, none => none

/-- Stable insertion of a row into an already sorted part of the list,
propagating a TypeError from the key comparison. -/
def insSortedPy (v : VideoRow) : List VideoRow → Option (List VideoRow)
  | [] => some [v]
  | w :: ws =>
      match pyKeyLe v.last_accessed w.last_accessed with
      | none => none
      | some true => some (v :: w :: ws)
      | some false =>
          match insSortedPy v ws with
          | none => none
          | some l => some (w :: l)

/-- Model of `videos.sort(key=...)` in cleanup_old_videos: a stable
ascending comparison sort that fails exactly when the list mixes NULL and
TEXT keys.  A correct comparison sort must justify the relative order of
every NULL-keyed row against every TEXT-keyed row by comparisons it
executed, and any such chain crosses from int keys to str keys in some
single comparison, so CPython's sort raises TypeError on exactly the
lists on which this model fails. -/
def pySort : List VideoRow → Option (List VideoRow)
  | [] => some []
  | v :: vs =>
      match pySort vs with
      | none => none
      | some l => insSortedPy v l

/-- For-loop of cleanup_old_videos.  Walks the candidates; breaks as soon
as the running size is at or below the target; skips a candidate whose
recorded size is falsy (zero) or whose file is not on disk; otherwise
unlinks the file, marks the row deleted, subtracts the freed size and
records the hash.  Returns the deleted hashes in eviction order, the new
table, the new disk, and the final running size. -/
def evictLoop (maxSize tf : Nat) (current : Int) (cands : List VideoRow)
    (t : Table) (disk : List String) :
    List String × Table × List String × Int :=
  match cands with
  | [] => ([], t, disk, current)
  | v :: rest =>
      if leTarget maxSize tf current then ([], t, disk, current)
      else
        let size := v.file_size.getD 0
        if size = 0 then evictLoop maxSize tf current rest t disk
        else if disk.contains v.hash then
          let t1 := (mark_video_deleted t v.hash).1
          let res := evictLoop maxSize tf (current - (size : Int)) rest t1
            (disk.erase v.hash)
          (v.hash :: res.1, res.2)
        else evictLoop maxSize tf current rest t disk

/-- StorageManager.cleanup_old_videos (the function takes no other
parameter besides self): fetch the READY rows and sort them by
last-accessed — a TypeError from the mixed-type sort key propagates to
the surrounding `except`, which logs it and returns the empty list with
nothing evicted — then compute the used size and the float target,
return at once when already at or below the target, and otherwise run
the eviction loop.  Returns the deleted hashes, the new table and the
new disk. -/
def cleanup_old_videos (maxSize tf : Nat) (t : Table) (disk : List String) :
    List String × Table × List String :=
  match pySort (get_all_ready t) with
  | none => ([], t, disk)
  | some videos =>
      let current := sumSizes videos
      if leTarget maxSize tf current then ([], t, disk)
      else
        let res := evictLoop maxSize tf current videos t disk
        (res.1, res.2.1, res.2.2.1)

/-- Status of the row stored under a hash, for stating trace facts. -/
def statusOf (t : Table) (h : String) : Option VideoStatus :=
  (t.find? fun r => r.hash == h).map VideoRow.status

/-! ## Concrete fixtures used by the claim theorems -/

/-- Fetch metadata placeholder for failure traces; the except branch of
_process_task never reads it. -/
def noMeta : FetchResult :=
  { title := none, file_size := none, duration := none, uploader := none,
    file_ext := none }

/-- Catalog holding the single row of key a, as create_video leaves it. -/
def tableA : Table := (create_video [] "a" "u" 5).1

/-- Queue right after add_task for key a on the fresh queue. -/
def queueA : QueueState := (add_task emptyQueue "a" "u").2

/-- State after the first failed download attempt of the task for key a. -/
def failCycle1 : Table × QueueState × List FutureEvent :=
  runOneTask false noMeta tableA queueA

/-- State after the second consecutive failed attempt. -/
def failCycle2 : Table × QueueState × List FutureEvent :=
  runOneTask false noMeta failCycle1.1 failCycle1.2.1

/-- State after the third consecutive failed attempt, which exhausts
max_retries = 3. -/
def failCycle3 : Table × QueueState × List FutureEvent :=
  runOneTask false noMeta failCycle2.1 failCycle2.2.1

/-- Queue state with one long-running active task for key a whose future is
still pending, as left behind by a downloader call that never returns. -/
def staleQueue : QueueState :=
  { queue := [], active := ["a"], cache := ["a"],
    futures := [("a", .pending)] }

/-- Row of key d stuck in status downloading, e.g. by a crash mid-download
after earlier failed attempts. -/
def downloadingRow : VideoRow :=
  { hash := "d", source_url := "u", title := none, file_size := none,
    last_accessed := none, access_count := 4, status := .downloading,
    created_at := 1, duration := none, uploader := none, file_ext := none }

/-- READY row fixture for the eviction scenario of claim C3. -/
def scRow (h : String) (sz la : Nat) : VideoRow :=
  { hash := h, source_url := "s", title := none, file_size := some sz,
    last_accessed := some la, access_count := 0, status := .ready,
    created_at := 0, duration := none, uploader := none, file_ext := none }

/-- Scenario catalog of claim C3: three READY artifacts sized 6, 3, 2 in
ascending last-accessed order, quota 10, target free space 20 percent. -/
def scenarioTable : Table := [scRow "h6" 6 1, scRow "h3" 3 2, scRow "h2" 2 3]

/-- All three scenario artifacts are on disk. -/
def scenarioDisk : List String := ["h6", "h3", "h2"]

/-- Scenario rows of claim C3 with the size-6 artifact never accessed: its
sort key is the int 0 while the other rows carry TEXT timestamps. -/
def mixedTable : Table :=
  [{ scRow "h6" 6 1 with last_accessed := none }, scRow "h3" 3 2,
   scRow "h2" 2 3]

/-- All three mixed-scenario artifacts are on disk. -/
def mixedDisk : List String := ["h6", "h3", "h2"]

/-- READY row of key hp with a huge access count, oldest by last-accessed
(claim C4 counterexample fixture). -/
def popularRow : VideoRow :=
  { hash := "hp", source_url := "s", title := none, file_size := some 6,
    last_accessed := some 1, access_count := 1000000, status := .ready,
    created_at := 0, duration := none, uploader := none, file_ext := none }

/-- Catalog where the oldest READY row is also by far the most accessed. -/
def popularTable : Table := [popularRow, scRow "k3" 3 2, scRow "k2" 2 3]

/-- Rewrite of each row's access count by an arbitrary function. -/
def setAccessCounts (f : VideoRow → Nat) (t : Table) : Table :=
  t.map fun r => { r with access_count := f r }

/-- READY row of key z whose size was recorded as zero, accessed earliest
so that it heads the eviction order. -/
def zeroSizeRow : VideoRow :=
  { hash := "z", source_url := "s", title := none, file_size := some 0,
    last_accessed := some 1, access_count := 0, status := .ready,
    created_at := 0, duration := none, uploader := none, file_ext := none }

/-- Pending row fixture for the restore witness. -/
def pendingRow : VideoRow :=
  { hash := "p", source_url := "u1", title := none, file_size := none,
    last_accessed := none, access_count := 0, status := .pending,
    created_at := 2, duration := none, uploader := none, file_ext := none }

/-- Ready row fixture for the restore witness. -/
def readyRow : VideoRow :=
  { hash := "r", source_url := "u2", title := some "t", file_size := some 9,
    last_accessed := some 7, access_count := 2, status := .ready,
    created_at := 3, duration := some 11, uploader := some "up",
    file_ext := some "mp4" }

/-! ## Helper lemmas about the sorting routine -/
theorem mem_insSorted (le : α → α → Bool) (x y : α) (l : List α) :
    y ∈ insSorted le x l ↔ y = x ∨ y ∈ l := by
  induction l with
  | nil => simp [insSorted]
  | cons z zs ih =>
      by_cases h : le x z = true
      · simp [insSorted, h]
      · simp only [insSorted, h]
        simp [ih]
        tauto

theorem perm_insSorted (le : α → α → Bool) (x : α) (l : List α) :
    List.Perm (insSorted le x l) (x :: l) := by
  induction l with
  | nil => simp [insSorted]
  | cons z zs ih =>
      by_cases h : le x z = true
      · simp [insSorted, h]
      · simp only [insSorted, h]
        exact List.Perm.trans (List.Perm.cons z ih) (List.Perm.swap x z zs)

theorem perm_stableSort (le : α → α → Bool) (l : List α) :
    List.Perm (stableSort le l) l := by
  induction l with
  | nil => simp [stableSort]
  | cons x xs ih =>
      exact List.Perm.trans (perm_insSorted le x (stableSort le xs))
        (List.Perm.cons x ih)

theorem mem_stableSort (le : α → α → Bool) (l : List α) (x : α) :
    x ∈ stableSort le l ↔ x ∈ l :=
  (perm_stableSort le l).mem_iff

theorem length_stableSort (le : α → α → Bool) (l : List α) :
    (stableSort le l).length = l.length :=
  (perm_stableSort le l).length_eq

theorem insSorted_map (le le' : α → α → Bool) (g : α → α)
    (hle : ∀ a b, le (g a) (g b) = le' a b) (x : α) (l : List α) :
    insSorted le (g x) (l.map g) = (insSorted le' x l).map g := by
  induction l with
  | nil => simp [insSorted]
  | cons z zs ih =>
      by_cases h : le' x z = true
      · simp [insSorted, hle, h]
      · simp only [List.map_cons, insSorted, hle, h]
        simp [ih]

theorem stableSort_map (le le' : α → α → Bool) (g : α → α)
    (hle : ∀ a b, le (g a) (g b) = le' a b) (l : List α) :
    stableSort le (l.map g) = (stableSort le' l).map g := by
  induction l with
  | nil => simp [stableSort]
  | cons x xs ih => simp [stableSort, ih, insSorted_map le le' g hle]

/-! ## Helper lemmas about single-row catalog updates -/
theorem hashPresent_iff (t : Table) (h : String) :
    hashPresent t h = true ↔ ∃ r ∈ t, r.hash = h := by
  simp [hashPresent]

theorem mem_update_status_of_ne {t : Table} {r : VideoRow} (h : String)
    (s : VideoStatus) (hr : r ∈ t) (hne : r.hash ≠ h) :
    r ∈ (update_status t h s).1 := by
  have hmem := List.mem_map_of_mem
    (f := fun r : VideoRow => if r.hash == h then { r with status := s } else r) hr
  have hbeq : (r.hash == h) = false := by simp [hne]
  simpa [update_status, hbeq] using hmem

theorem mem_update_status_of_eq {t : Table} {r : VideoRow} (h : String)
    (s : VideoStatus) (hr : r ∈ t) (heq : r.hash = h) :
    { r with status := s } ∈ (update_status t h s).1 := by
  have hmem := List.mem_map_of_mem
    (f := fun r : VideoRow => if r.hash == h then { r with status := s } else r) hr
  have hbeq : (r.hash == h) = true := by simp [heq]
  simpa [update_status, hbeq] using hmem

theorem update_status_map_hash (t : Table) (h : String) (s : VideoStatus) :
    (update_status t h s).1.map VideoRow.hash = t.map VideoRow.hash := by
  simp only [update_status, List.map_map]
  apply List.map_congr_left
  intro r _
  by_cases hb : r.hash = h <;> simp [hb]

theorem hashPresent_update_status (t : Table) (h h' : String)
    (s : VideoStatus) : hashPresent (update_status t h s).1 h' = hashPresent t h' := by
  have key : ∀ (l : Table) (f : VideoRow → VideoRow),
      (∀ r, (f r).hash = r.hash) →
      ((l.map f).any fun r => r.hash == h') = l.any fun r => r.hash == h' := by
    intro l f hf
    induction l with
    | nil => rfl
    | cons r rs ih => simp [hf, ih]
  have hf : ∀ r : VideoRow,
      ((if r.hash == h then { r with status := s } else r) : VideoRow).hash
        = r.hash := by
    intro r
    by_cases hb : r.hash = h <;> simp [hb]
  simpa [update_status, hashPresent] using
    key t (fun r => if r.hash == h then { r with status := s } else r) hf

theorem mem_mark_deleted_of_ne {t : Table} {r : VideoRow} (h : String)
    (hr : r ∈ t) (hne : r.hash ≠ h) : r ∈ (mark_video_deleted t h).1 := by
  have hmem := List.mem_map_of_mem
    (f := fun r : VideoRow =>
      if r.hash == h then
        { r with status := .deleted, file_size := none, file_ext := none }
      else r) hr
  have hbeq : (r.hash == h) = false := by simp [hne]
  simpa [mark_video_deleted, hbeq] using hmem

/-! ## Helper lemmas about the eviction loop -/
theorem evictLoop_deleted_sublist (m tf : Nat) (cur : Int)
    (cands : List VideoRow) (t : Table) (d : List String) :
    List.Sublist (evictLoop m tf cur cands t d).1 (cands.map VideoRow.hash) := by
  induction cands generalizing cur t d with
  | nil => simp [evictLoop]
  | cons v rest ih =>
      simp only [evictLoop, List.map_cons]
      by_cases h1 : leTarget m tf cur = true
      · simp [h1]
      · simp only [h1, if_false, Bool.false_eq_true]
        by_cases h2 : v.file_size.getD 0 = 0
        · simp only [h2, if_true]
          exact List.Sublist.cons _ (ih cur t d)
        · simp only [h2, if_false]
          by_cases h3 : d.contains v.hash = true
          · simp only [h3, if_true]
            exact List.Sublist.cons₂ _
              (ih (cur - (v.file_size.getD 0 : Int)) _ _)
          · simp only [h3, if_false, Bool.false_eq_true]
            exact List.Sublist.cons _ (ih cur t d)

theorem evictLoop_disk_subset (m tf : Nat) (cur : Int)
    (cands : List VideoRow) (t : Table) (d : List String) :
    ∀ x ∈ (evictLoop m tf cur cands t d).2.2.1, x ∈ d := by
  induction cands generalizing cur t d with
  | nil => simp [evictLoop]
  | cons v rest ih =>
      intro x hx
      simp only [evictLoop] at hx
      by_cases h1 : leTarget m tf cur = true
      · simp [h1] at hx; exact hx
      · simp only [h1, if_false, Bool.false_eq_true] at hx
        by_cases h2 : v.file_size.getD 0 = 0
        · simp only [h2, if_true] at hx
          exact ih cur t d x hx
        · simp only [h2, if_false] at hx
          by_cases h3 : d.contains v.hash = true
          · simp only [h3, if_true] at hx
            exact List.mem_of_mem_erase
              (ih (cur - (v.file_size.getD 0 : Int)) _ _ x hx)
          · simp only [h3, if_false, Bool.false_eq_true] at hx
            exact ih cur t d x hx

theorem evictLoop_stop (m tf : Nat) (cur : Int) (cands : List VideoRow)
    (t : Table) (d : List String) :
    leTarget m tf (evictLoop m tf cur cands t d).2.2.2 = true ∨
    ∀ v ∈ cands, v.hash ∉ (evictLoop m tf cur cands t d).1 →
      (v.file_size.getD 0 = 0 ∨
        v.hash ∉ (evictLoop m tf cur cands t d).2.2.1) := by
  induction cands generalizing cur t d with
  | nil => right; intro v hv; simp at hv
  | cons v rest ih =>
      by_cases h1 : leTarget m tf cur = true
      · left; simp [evictLoop, h1]
      · by_cases h2 : v.file_size.getD 0 = 0
        · have hred : evictLoop m tf cur (v :: rest) t d
              = evictLoop m tf cur rest t d := by
            simp [evictLoop, h1, h2]
          rw [hred]
          rcases ih cur t d with hl | hr
          · left; exact hl
          · right
            intro w hw hwd
            rcases List.mem_cons.mp hw with hweq | hwr
            · left; rw [hweq]; exact h2
            · exact hr w hwr hwd
        · by_cases h3 : v.hash ∈ d
          · have hred : evictLoop m tf cur (v :: rest) t d
                = ((v.hash :: (evictLoop m tf (cur - (v.file_size.getD 0 : Int))
                    rest ((mark_video_deleted t v.hash).1) (d.erase v.hash)).1),
                   (evictLoop m tf (cur - (v.file_size.getD 0 : Int))
                    rest ((mark_video_deleted t v.hash).1) (d.erase v.hash)).2) := by
              simp [evictLoop, h1, h2, h3]
            rw [hred]
            rcases ih (cur - (v.file_size.getD 0 : Int))
                ((mark_video_deleted t v.hash).1) (d.erase v.hash) with hl | hr
            · left; exact hl
            · right
              intro w hw hwd
              rcases List.mem_cons.mp hw with hweq | hwr
              · exact absurd (by rw [hweq]; exact List.mem_cons_self _ _) hwd
              · exact hr w hwr fun hc => hwd (List.mem_cons_of_mem _ hc)
          · have hred : evictLoop m tf cur (v :: rest) t d
                = evictLoop m tf cur rest t d := by
              simp [evictLoop, h1, h2, h3]
            rw [hred]
            rcases ih cur t d with hl | hr
            · left; exact hl
            · right
              intro w hw hwd
              rcases List.mem_cons.mp hw with hweq | hwr
              · right
                rw [hweq]
                intro hcontra
                exact h3 (evictLoop_disk_subset m tf cur rest t d _ hcontra)
              · exact hr w hwr hwd

theorem evictLoop_deleted_mem (m tf : Nat) (cur : Int) (cands : List VideoRow)
    (t : Table) (d : List String) (h : String)
    (hd : h ∈ (evictLoop m tf cur cands t d).1) :
    ∃ v ∈ cands, v.hash = h ∧ v.file_size.getD 0 ≠ 0 ∧ h ∈ d := by
  induction cands generalizing cur t d with
  | nil => simp [evictLoop] at hd
  | cons v rest ih =>
      simp only [evictLoop] at hd
      by_cases h1 : leTarget m tf cur = true
      · simp [h1] at hd
      · simp only [h1, if_false, Bool.false_eq_true] at hd
        by_cases h2 : v.file_size.getD 0 = 0
        · simp only [h2, if_true] at hd
          rcases ih cur t d hd with ⟨w, hw, hrest⟩
          exact ⟨w, List.mem_cons_of_mem _ hw, hrest⟩
        · simp only [h2, if_false] at hd
          by_cases h3 : d.contains v.hash = true
          · simp only [h3, if_true] at hd
            rcases List.mem_cons.mp hd with heq | hds
            · refine ⟨v, List.mem_cons_self _ _, heq.symm, h2, ?_⟩
              rw [heq]
              simpa using h3
            · rcases ih _ _ _ hds with ⟨w, hw, hwh, hwsz, hwd⟩
              exact ⟨w, List.mem_cons_of_mem _ hw, hwh, hwsz,
                List.mem_of_mem_erase hwd⟩
          · simp only [h3, if_false, Bool.false_eq_true] at hd
            rcases ih cur t d hd with ⟨w, hw, hrest⟩
            exact ⟨w, List.mem_cons_of_mem _ hw, hrest⟩

theorem evictLoop_table_frame (m tf : Nat) (cur : Int) (cands : List VideoRow)
    (t : Table) (d : List String) (r : VideoRow) (hr : r ∈ t)
    (hnd : r.hash ∉ (evictLoop m tf cur cands t d).1) :
    r ∈ (evictLoop m tf cur cands t d).2.1 := by
  induction cands generalizing cur t d with
  | nil => simpa [evictLoop] using hr
  | cons v rest ih =>
      simp only [evictLoop] at hnd ⊢
      by_cases h1 : leTarget m tf cur = true
      · simpa [h1] using hr
      · simp only [h1, if_false, Bool.false_eq_true] at hnd ⊢
        by_cases h2 : v.file_size.getD 0 = 0
        · simp only [h2, if_true] at hnd ⊢
          exact ih cur t d hr hnd
        · simp only [h2, if_false] at hnd ⊢
          by_cases h3 : d.contains v.hash = true
          · simp only [h3, if_true] at hnd ⊢
            have hne : r.hash ≠ v.hash := by
              intro hcontra
              exact hnd (by rw [hcontra]; exact List.mem_cons_self _ _)
            have hr1 : r ∈ (mark_video_deleted t v.hash).1 :=
              mem_mark_deleted_of_ne v.hash hr hne
            exact ih _ _ _ hr1 fun hc => hnd (List.mem_cons_of_mem _ hc)
          · simp only [h3, if_false, Bool.false_eq_true] at hnd ⊢
            exact ih cur t d hr hnd

theorem evictLoop_disk_frame (m tf : Nat) (cur : Int) (cands : List VideoRow)
    (t : Table) (d : List String) (x : String)
    (hx : x ∉ (evictLoop m tf cur cands t d).1) :
    (x ∈ (evictLoop m tf cur cands t d).2.2.1 ↔ x ∈ d) := by
  induction cands generalizing cur t d with
  | nil => simp [evictLoop]
  | cons v rest ih =>
      simp only [evictLoop] at hx ⊢
      by_cases h1 : leTarget m tf cur = true
      · simp [h1]
      · simp only [h1, if_false, Bool.false_eq_true] at hx ⊢
        by_cases h2 : v.file_size.getD 0 = 0
        · simp only [h2, if_true] at hx ⊢
          exact ih cur t d hx
        · simp only [h2, if_false] at hx ⊢
          by_cases h3 : d.contains v.hash = true
          · simp only [h3, if_true] at hx ⊢
            have hne : x ≠ v.hash := by
              intro hcontra
              exact hx (by rw [hcontra]; exact List.mem_cons_self _ _)
            have hrec := ih (cur - (v.file_size.getD 0 : Int))
              ((mark_video_deleted t v.hash).1) (d.erase v.hash)
              (fun hc => hx (List.mem_cons_of_mem _ hc))
            rw [hrec]
            exact List.mem_erase_of_ne hne
          · simp only [h3, if_false, Bool.false_eq_true] at hx ⊢
            exact ih cur t d hx

/-! ## Helper lemmas about the failable python sort -/

theorem mem_insSortedPy {v : VideoRow} {l l2 : List VideoRow}
    (h : insSortedPy v l = some l2) (x : VideoRow) :
    x ∈ l2 ↔ x = v ∨ x ∈ l := by
  induction l generalizing l2 with
  | nil =>
      simp only [insSortedPy, Option.some.injEq] at h
      subst h
      simp
  | cons w ws ih =>
      simp only [insSortedPy] at h
      cases hk : pyKeyLe v.last_accessed w.last_accessed with
      | none => rw [hk] at h; cases h
      | some b =>
          rw [hk] at h
          cases b with
          | true =>
              simp only [Option.some.injEq] at h
              subst h
              simp only [List.mem_cons]
          | false =>
              cases hrec : insSortedPy v ws with
              | none => rw [hrec] at h; cases h
              | some lr =>
                  rw [hrec] at h
                  simp only [Option.some.injEq] at h
                  subst h
                  simp only [List.mem_cons, ih hrec]
                  tauto

theorem mem_pySort {l l2 : List VideoRow} (h : pySort l = some l2)
    (x : VideoRow) : x ∈ l2 ↔ x ∈ l := by
  induction l generalizing l2 with
  | nil =>
      simp only [pySort, Option.some.injEq] at h
      subst h
      rfl
  | cons v vs ih =>
      simp only [pySort] at h
      cases hrec : pySort vs with
      | none => rw [hrec] at h; cases h
      | some l1 =>
          rw [hrec] at h
          rw [mem_insSortedPy h x, List.mem_cons, ih hrec]

theorem insSortedPy_head_fail {v u : VideoRow} (us : List VideoRow)
    (hk : pyKeyLe v.last_accessed u.last_accessed = none) :
    insSortedPy v (u :: us) = none := by
  simp [insSortedPy, hk]

theorem pySort_mixed_none (l : List VideoRow)
    (hmix : (∃ r ∈ l, r.last_accessed = none) ∧
            ∃ w ∈ l, w.last_accessed ≠ none) :
    pySort l = none := by
  induction l with
  | nil => simp at hmix
  | cons v vs ih =>
      rcases hmix with ⟨⟨r, hr, hrn⟩, ⟨w, hw, hws⟩⟩
      simp only [pySort]
      cases hrec : pySort vs with
      | none => rfl
      | some l1 =>
          by_cases hv : v.last_accessed = none
          · -- the non-NULL row w must sit in vs
            have hwvs : w ∈ vs := by
              rcases List.mem_cons.mp hw with h0 | h0
              · exact absurd (h0 ▸ hv) hws
              · exact h0
            by_cases hn : ∃ u ∈ vs, u.last_accessed = none
            · rcases hn with ⟨u, hu, hun⟩
              rw [ih ⟨⟨u, hu, hun⟩, ⟨w, hwvs, hws⟩⟩] at hrec
              cases hrec
            · -- every row of vs carries a timestamp, so the sorted head does
              cases l1 with
              | nil => exact absurd ((mem_pySort hrec w).mpr hwvs) (by simp)
              | cons u us =>
                  have hu_vs : u ∈ vs :=
                    (mem_pySort hrec u).mp (List.mem_cons_self u us)
                  have hus : u.last_accessed ≠ none :=
                    fun hc => hn ⟨u, hu_vs, hc⟩
                  have hk : pyKeyLe v.last_accessed u.last_accessed = none := by
                    rw [hv]
                    cases hcu : u.last_accessed with
                    | none => exact absurd hcu hus
                    | some a => rfl
                  exact insSortedPy_head_fail us hk
          · -- the NULL row r must sit in vs
            have hrvs : r ∈ vs := by
              rcases List.mem_cons.mp hr with h0 | h0
              · exact absurd (h0 ▸ hrn) hv
              · exact h0
            by_cases hs : ∃ u ∈ vs, u.last_accessed ≠ none
            · rcases hs with ⟨u, hu, hun⟩
              rw [ih ⟨⟨r, hrvs, hrn⟩, ⟨u, hu, hun⟩⟩] at hrec
              cases hrec
            · -- every row of vs is NULL, so the sorted head is
              cases l1 with
              | nil => exact absurd ((mem_pySort hrec r).mpr hrvs) (by simp)
              | cons u us =>
                  have hu_vs : u ∈ vs :=
                    (mem_pySort hrec u).mp (List.mem_cons_self u us)
                  have hun : u.last_accessed = none := by
                    by_contra hc
                    exact hs ⟨u, hu_vs, hc⟩
                  have hk : pyKeyLe v.last_accessed u.last_accessed = none := by
                    rw [hun]
                    cases hcv : v.last_accessed with
                    | none => exact absurd hcv hv
                    | some a => rfl
                  exact insSortedPy_head_fail us hk

theorem insSortedPy_map (g : VideoRow → VideoRow)
    (hla : ∀ r, (g r).last_accessed = r.last_accessed) (v : VideoRow)
    (l : List VideoRow) :
    insSortedPy (g v) (l.map g) = (insSortedPy v l).map (List.map g) := by
  induction l with
  | nil => simp [insSortedPy]
  | cons w ws ih =>
      simp only [List.map_cons, insSortedPy, hla]
      cases hk : pyKeyLe v.last_accessed w.last_accessed with
      | none => simp
      | some b =>
          cases b with
          | true => simp
          | false =>
              rw [ih]
              cases insSortedPy v ws <;> simp

theorem pySort_map (g : VideoRow → VideoRow)
    (hla : ∀ r, (g r).last_accessed = r.last_accessed) (l : List VideoRow) :
    pySort (l.map g) = (pySort l).map (List.map g) := by
  induction l with
  | nil => simp [pySort]
  | cons v vs ih =>
      simp only [List.map_cons, pySort, ih]
      cases pySort vs with
      | none => simp
      | some l1 => simpa using insSortedPy_map g hla v l1

theorem cleanup_sort_fail (m tf : Nat) (t : Table) (d : List String)
    (h : pySort (get_all_ready t) = none) :
    cleanup_old_videos m tf t d = ([], t, d) := by
  simp [cleanup_old_videos, h]

theorem cleanup_sort_ok (m tf : Nat) (t : Table) (d : List String)
    (videos : List VideoRow) (h : pySort (get_all_ready t) = some videos) :
    cleanup_old_videos m tf t d =
      ((evictLoop m tf (sumSizes videos) videos t d).1,
       (evictLoop m tf (sumSizes videos) videos t d).2.1,
       (evictLoop m tf (sumSizes videos) videos t d).2.2.1) := by
  simp only [cleanup_old_videos, h]
  by_cases h1 : leTarget m tf (sumSizes videos) = true
  · cases videos with
    | nil => simp [h1, evictLoop]
    | cons v rest => simp [h1, evictLoop]
  · simp [h1]

/-! ## Helper lemmas about the restore loop -/
theorem restoreLoop_table (rows : List VideoRow) (t : Table) (qs : QueueState) :
    (restoreLoop rows t qs).2.1
      = rows.foldl (fun tt v => (update_status tt v.hash .pending).1) t := by
  induction rows generalizing t qs with
  | nil => simp [restoreLoop]
  | cons v rest ih =>
      simp only [restoreLoop, List.foldl_cons]
      by_cases hu : (update_status t v.hash .pending).2 = true
      · simp only [hu, if_true]
        exact ih _ _
      · simp only [eq_false_of_ne_true hu, Bool.false_eq_true, if_false]
        exact ih _ _

theorem foldl_update_mem_of_not_mem_hashes (rows : List VideoRow) (t : Table)
    (r : VideoRow) (hr : r ∈ t) (hout : r.hash ∉ rows.map VideoRow.hash) :
    r ∈ rows.foldl (fun tt v => (update_status tt v.hash .pending).1) t := by
  induction rows generalizing t with
  | nil => simpa using hr
  | cons v rest ih =>
      simp only [List.map_cons, List.mem_cons] at hout
      push_neg at hout
      simp only [List.foldl_cons]
      exact ih _ (mem_update_status_of_ne v.hash .pending hr hout.1) hout.2

theorem foldl_update_mem_of_mem_hashes (rows : List VideoRow) (t : Table)
    (r : VideoRow) (hr : r ∈ t) (hin : r.hash ∈ rows.map VideoRow.hash) :
    { r with status := VideoStatus.pending }
      ∈ rows.foldl (fun tt v => (update_status tt v.hash .pending).1) t := by
  induction rows generalizing t r with
  | nil => simp at hin
  | cons v rest ih =>
      simp only [List.foldl_cons]
      by_cases heq : r.hash = v.hash
      · have hr1 : { r with status := VideoStatus.pending }
            ∈ (update_status t v.hash .pending).1 :=
          mem_update_status_of_eq v.hash .pending hr heq
        by_cases hrest : r.hash ∈ rest.map VideoRow.hash
        · exact ih _ ({ r with status := VideoStatus.pending }) hr1 hrest
        · exact foldl_update_mem_of_not_mem_hashes rest _ _ hr1 hrest
      · have hrest : r.hash ∈ rest.map VideoRow.hash := by
          rw [List.map_cons] at hin
          rcases List.mem_cons.mp hin with h0 | h0
          · exact absurd h0 heq
          · exact h0
        exact ih _ _ (mem_update_status_of_ne v.hash .pending hr heq) hrest

theorem add_task_not_cached (qs : QueueState) (h u : String)
    (hc : h ∉ qs.cache) :
    add_task qs h u
      = (true, { queue := qs.queue ++ [{ video_hash := h, url := u }],
                 active := qs.active, cache := qs.cache ++ [h],
                 futures := qs.futures ++ [(h, .pending)] }) := by
  simp [add_task, hc]

theorem restoreLoop_retry_counts (rows : List VideoRow) (t : Table)
    (qs : QueueState)
    (hq : ∀ task ∈ qs.queue, task.retry_count = 0) :
    ∀ task ∈ (restoreLoop rows t qs).2.2.queue, task.retry_count = 0 := by
  induction rows generalizing t qs with
  | nil => simpa [restoreLoop] using hq
  | cons v rest ih =>
      simp only [restoreLoop]
      by_cases hu : (update_status t v.hash .pending).2 = true
      · simp only [hu, if_true]
        apply ih
        intro task htask
        simp only [add_task] at htask
        split at htask
        · exact hq task htask
        · rcases List.mem_append.mp htask with h0 | h0
          · exact hq task h0
          · simp only [List.mem_singleton] at h0
            rw [h0]
      · simp only [eq_false_of_ne_true hu, Bool.false_eq_true, if_false]
        exact ih _ _ hq

theorem restoreLoop_spec (rows : List VideoRow) (t : Table) (qs : QueueState)
    (hpres : ∀ v ∈ rows, hashPresent t v.hash = true)
    (hnew : ∀ v ∈ rows, v.hash ∉ qs.cache)
    (hndr : (rows.map VideoRow.hash).Nodup) :
    (restoreLoop rows t qs).1 = rows.length ∧
    (restoreLoop rows t qs).2.2.queue.map DownloadTask.video_hash
      = qs.queue.map DownloadTask.video_hash ++ rows.map VideoRow.hash ∧
    (restoreLoop rows t qs).2.2.cache = qs.cache ++ rows.map VideoRow.hash := by
  induction rows generalizing t qs with
  | nil => simp [restoreLoop]
  | cons v rest ih =>
      have hu : (update_status t v.hash .pending).2 = true :=
        hpres v (List.mem_cons_self _ _)
      simp only [restoreLoop, hu, if_true,
        add_task_not_cached qs v.hash v.source_url (hnew v (List.mem_cons_self _ _))]
      simp only [List.map_cons] at hndr
      have hpres1 : ∀ w ∈ rest, hashPresent (update_status t v.hash .pending).1 w.hash = true := by
        intro w hw
        rw [hashPresent_update_status]
        exact hpres w (List.mem_cons_of_mem _ hw)
      have hnew1 : ∀ w ∈ rest, w.hash ∉ qs.cache ++ [v.hash] := by
        intro w hw hcontra
        rcases List.mem_append.mp hcontra with h0 | h0
        · exact hnew w (List.mem_cons_of_mem _ hw) h0
        · simp only [List.mem_singleton] at h0
          exact (List.nodup_cons.mp hndr).1 (h0 ▸ List.mem_map_of_mem _ hw)
      have ihh := ih (update_status t v.hash .pending).1
        { queue := qs.queue ++ [{ video_hash := v.hash, url := v.source_url }],
          active := qs.active, cache := qs.cache ++ [v.hash],
          futures := qs.futures ++ [(v.hash, .pending)] }
        hpres1 hnew1 (List.nodup_cons.mp hndr).2
      refine ⟨?_, ?_, ?_⟩
      · simp [ihh.1]
      · rw [ihh.2.1]
        simp
      · rw [ihh.2.2]
        simp

/-! ## Helper lemmas for the irrelevance of access counts to eviction -/
theorem filter_map_comm (g : α → α) (p : α → Bool) (l : List α) :
    (l.map g).filter p = (l.filter fun x => p (g x)).map g := by
  induction l with
  | nil => rfl
  | cons x xs ih => by_cases h : p (g x) = true <;> simp [h, ih]

theorem get_all_ready_map (g : VideoRow → VideoRow)
    (hst : ∀ r, (g r).status = r.status)
    (hfs : ∀ r, (g r).file_size = r.file_size) (t : Table)
    (hla : ∀ r, (g r).last_accessed = r.last_accessed) :
    get_all_ready (t.map g) = (get_all_ready t).map g := by
  unfold get_all_ready
  rw [filter_map_comm]
  have hp : (fun x : VideoRow =>
        decide ((g x).status = .ready) && (g x).file_size.isSome)
      = fun r : VideoRow => decide (r.status = .ready) && r.file_size.isSome := by
    funext r
    rw [hst, hfs]
  rw [hp]
  exact stableSort_map sqliteLaLe sqliteLaLe g
    (fun a b => by unfold sqliteLaLe; rw [hla, hla]) _

theorem sumSizes_map (g : VideoRow → VideoRow)
    (hfs : ∀ r, (g r).file_size = r.file_size) (l : List VideoRow) :
    sumSizes (l.map g) = sumSizes l := by
  unfold sumSizes
  rw [List.map_map]
  congr 1
  apply List.map_congr_left
  intro r _
  simp [Function.comp, hfs]

theorem evictLoop_map (m tf : Nat) (g : VideoRow → VideoRow)
    (hh : ∀ v, (g v).hash = v.hash) (hfs : ∀ v, (g v).file_size = v.file_size)
    (cur : Int) (cands : List VideoRow) (t t' : Table) (d : List String) :
    (evictLoop m tf cur (cands.map g) t' d).1
      = (evictLoop m tf cur cands t d).1 ∧
    (evictLoop m tf cur (cands.map g) t' d).2.2.1
      = (evictLoop m tf cur cands t d).2.2.1 ∧
    (evictLoop m tf cur (cands.map g) t' d).2.2.2
      = (evictLoop m tf cur cands t d).2.2.2 := by
  induction cands generalizing cur t t' d with
  | nil => simp [evictLoop]
  | cons v rest ih =>
      simp only [List.map_cons, evictLoop, hh, hfs]
      by_cases h1 : leTarget m tf cur = true
      · simp [h1]
      · simp only [h1, Bool.false_eq_true, if_false]
        by_cases h2 : v.file_size.getD 0 = 0
        · simp only [h2, if_true]
          exact ih cur t t' d
        · simp only [h2, if_false]
          by_cases h3 : d.contains v.hash = true
          · simp only [h3, if_true]
            have hrec := ih (cur - (v.file_size.getD 0 : Int))
              ((mark_video_deleted t v.hash).1) ((mark_video_deleted t' v.hash).1)
              (d.erase v.hash)
            exact ⟨by rw [hrec.1], hrec.2.1, hrec.2.2⟩
          · simp only [h3, if_false, Bool.false_eq_true]
            exact ih cur t t' d

/-! ## Claim theorems -/

/-- Claim C1 (code bug): the dedup invariant is not preserved by the
re-enqueue after a failed attempt.  After one failure the task of key a is
back in the pending queue, but the finally block of _process_task has
already deleted the key from the task cache that add_task checks, so
add_task returns true instead of false and a second task for the same key
enters the queue. -/
theorem dedup_violated_after_requeue :
    failCycle1.2.1.queue.map DownloadTask.video_hash = ["a"] ∧
    failCycle1.2.1.cache = [] ∧
    (add_task failCycle1.2.1 "a" "u").1 = true ∧
    (add_task failCycle1.2.1 "a" "u").2.queue.map DownloadTask.video_hash
      = ["a", "a"] := by
  decide

/-- Claim C2 (code bug): after exactly max_retries = 3 consecutive failures
the catalog status of key a is failed and the task is not re-enqueued, as
the claim states; but the completion future is not resolved with the
error — it was cancelled and deleted by the finally block of the first
failed attempt, so the terminal set_exception guard finds no future and
fires no event. -/
theorem terminal_failure_leaves_future_unresolved :
    statusOf failCycle3.1 "a" = some .failed ∧
    failCycle3.2.1.queue = [] ∧
    failCycle3.2.1.active = [] ∧
    failCycle1.2.2 = [.cancelFuture] ∧
    failCycle2.2.2 = [] ∧
    failCycle3.2.2 = [] := by
  decide

/-- Claim C5 counterexample: the monitor step leaves a stale active task
(of any age — the step reads no clock) in the active set with its future
still pending and only emits a log line, instead of force-failing it. -/
theorem monitor_ignores_stale_tasks :
    (monitor_step staleQueue).1.active = ["a"] ∧
    (monitor_step staleQueue).1.futures = [("a", FutureState.pending)] ∧
    (monitor_step staleQueue).2 = true := by
  decide

/-- Claim C5 as amended: one iteration of _monitor_loop is a pure observer:
it returns the queue state unchanged, and logs exactly when the pending
queue or the active set is nonempty.  No task is ever transitioned to
failed or removed from the active set by the monitor. -/
theorem monitor_step_pure_observer (qs : QueueState) :
    (monitor_step qs).1 = qs ∧
    ((monitor_step qs).2 = true ↔ (qs.queue ≠ [] ∨ qs.active ≠ [])) := by
  refine ⟨rfl, ?_⟩
  simp [monitor_step]

/-- Claim C7: create_video is INSERT OR IGNORE on the primary key: the
first create of an absent key reports created and appends exactly the
fresh row; a second create of the same key reports not-created, raises
nothing, and leaves the table — in particular every field of the existing
record — unchanged. -/
theorem create_video_insert_or_ignore (t : Table) (h u u2 : String)
    (n n2 : Nat) (habs : hashPresent t h = false) :
    (create_video t h u n).2 = true ∧
    (create_video t h u n).1 = t ++ [freshRow h u n] ∧
    (create_video (create_video t h u n).1 h u2 n2).2 = false ∧
    (create_video (create_video t h u n).1 h u2 n2).1
      = (create_video t h u n).1 := by
  have h1 : hashPresent (t ++ [freshRow h u n]) h = true := by
    simp [hashPresent, freshRow]
  refine ⟨?_, ?_, ?_, ?_⟩ <;>
    simp [create_video, insert_video, habs, h1]

/-- Witness for create_video_insert_or_ignore at the empty table. -/
theorem create_video_insert_or_ignore_witness :
    hashPresent [] "a" = false ∧
    ((create_video ([] : Table) "a" "u" 0).2 = true ∧
     (create_video ([] : Table) "a" "u" 0).1 = [] ++ [freshRow "a" "u" 0] ∧
     (create_video (create_video ([] : Table) "a" "u" 0).1 "a" "u2" 1).2 = false ∧
     (create_video (create_video ([] : Table) "a" "u" 0).1 "a" "u2" 1).1
       = (create_video ([] : Table) "a" "u" 0).1) :=
  ⟨by decide, create_video_insert_or_ignore [] "a" "u" "u2" 0 1 (by decide)⟩

/-- Claim C9: mark_video_deleted keeps the row count, reports whether the
key exists, leaves every row of a different key untouched, and rewrites the
matching row to the same record with status deleted and file_size and
file_ext cleared — so source url, title, timestamps, access count,
duration and uploader are unchanged and the row is never removed. -/
theorem mark_deleted_frame (t : Table) (h : String) (r : VideoRow)
    (hr : r ∈ t) :
    (mark_video_deleted t h).1.length = t.length ∧
    (mark_video_deleted t h).2 = hashPresent t h ∧
    (r.hash ≠ h → r ∈ (mark_video_deleted t h).1) ∧
    (r.hash = h →
      { r with status := VideoStatus.deleted, file_size := none,
               file_ext := none } ∈ (mark_video_deleted t h).1) := by
  refine ⟨by simp [mark_video_deleted], rfl,
    fun hne => mem_mark_deleted_of_ne h hr hne, fun heq => ?_⟩
  have hmem := List.mem_map_of_mem
    (f := fun r : VideoRow =>
      if r.hash == h then
        { r with status := .deleted, file_size := none, file_ext := none }
      else r) hr
  have hbeq : (r.hash == h) = true := by simp [heq]
  simpa [mark_video_deleted, hbeq] using hmem

/-- Witness for mark_deleted_frame on a one-row table. -/
theorem mark_deleted_frame_witness :
    downloadingRow ∈ [downloadingRow] ∧
    ((mark_video_deleted [downloadingRow] "d").1.length
        = ([downloadingRow] : Table).length ∧
     (mark_video_deleted [downloadingRow] "d").2
        = hashPresent [downloadingRow] "d" ∧
     (downloadingRow.hash ≠ "d" →
        downloadingRow ∈ (mark_video_deleted [downloadingRow] "d").1) ∧
     (downloadingRow.hash = "d" →
        { downloadingRow with
          status := VideoStatus.deleted, file_size := none, file_ext := none }
          ∈ (mark_video_deleted [downloadingRow] "d").1)) :=
  ⟨by decide, mark_deleted_frame [downloadingRow] "d" downloadingRow (by decide)⟩

/-- Claim C8 counterexample: the videos schema has no retry-count column at
all, and the task reconstructed by the restore step for a downloading row
carries retry_count 0 whatever happened before the restart — there is no
persisted counter to reconcile with. -/
theorem retry_count_column_missing :
    "retry_count" ∉ tableColumns ∧
    (restore_pending_tasks [downloadingRow] emptyQueue).2.2.queue.map
        DownloadTask.retry_count = [0] := by
  decide

/-- Membership in the unsorted READY selection implies membership in the
table. -/
theorem mem_of_mem_get_all_ready {t : Table} {v : VideoRow}
    (hv : v ∈ get_all_ready t) : v ∈ t := by
  unfold get_all_ready at hv
  rw [mem_stableSort] at hv
  exact List.mem_of_mem_filter hv

/-- Membership in the restore row list implies membership in the table,
with the pending-or-downloading property. -/
theorem mem_of_mem_get_pending {t : Table} {v : VideoRow}
    (hv : v ∈ get_pending_videos t) :
    v ∈ t ∧ (v.status = .pending ∨ v.status = .downloading) := by
  unfold get_pending_videos at hv
  rw [mem_stableSort] at hv
  have := List.mem_filter.mp hv
  refine ⟨this.1, ?_⟩
  have hb := this.2
  simp only [Bool.or_eq_true, decide_eq_true_eq] at hb
  exact hb

/-- Pending-or-downloading rows are all in the restore row list. -/
theorem mem_get_pending_of_status {t : Table} {r : VideoRow} (hr : r ∈ t)
    (hst : r.status = .pending ∨ r.status = .downloading) :
    r ∈ get_pending_videos t := by
  unfold get_pending_videos
  rw [mem_stableSort]
  refine List.mem_filter.mpr ⟨hr, ?_⟩
  simp only [Bool.or_eq_true, decide_eq_true_eq]
  exact hst

/-- Distinctness of table keys carries over to the restore row list. -/
theorem nodup_get_pending_hashes {t : Table}
    (hnd : (t.map VideoRow.hash).Nodup) :
    ((get_pending_videos t).map VideoRow.hash).Nodup := by
  have hfil : ((t.filter fun r =>
      decide (r.status = .pending) || decide (r.status = .downloading)).map
      VideoRow.hash).Nodup :=
    ((List.filter_sublist t).map VideoRow.hash).nodup hnd
  have hperm := (perm_stableSort (fun a b : VideoRow =>
      a.created_at ≤ b.created_at)
    (t.filter fun r =>
      decide (r.status = .pending) || decide (r.status = .downloading))).map
    VideoRow.hash
  unfold get_pending_videos
  exact (hperm.nodup_iff).mpr hfil

/-- Claim C8 as amended: the retry counter lives only on the in-memory
DownloadTask: the catalog schema has no retry-count column, and every task
rebuilt by _restore_pending_tasks starts with retry_count = 0. -/
theorem restored_tasks_start_at_zero_retries (t : Table) :
    "retry_count" ∉ tableColumns ∧
    ∀ task ∈ (restore_pending_tasks t emptyQueue).2.2.queue,
      task.retry_count = 0 := by
  refine ⟨by decide, ?_⟩
  apply restoreLoop_retry_counts
  intro task htask
  simp [emptyQueue] at htask

/-- Claim C3 (code bug): as soon as the READY candidates mix a
never-accessed row with an accessed one — here the spec scenario with the
size-6 artifact never accessed — the sort key mixes the int 0 with TEXT
timestamps, list.sort raises TypeError, the surrounding except swallows it
and the pass evicts nothing at all, leaving used at 11, above the target:
the claimed oldest-first walk with never-accessed sorting oldest never
happens.  With homogeneous timestamps the scenario behaves as the claim
states — exactly the size-6 artifact is evicted, its row marked deleted,
its file unlinked, used drops to 5 — which is the evident intent of the
`or 0` sort key.  Separately, the stop threshold the code computes is the
float max_size * (1 - tf / 100): at a 5 GiB quota and target_free_space
80 the claim's exact stop condition holds at used = 2 ^ 30 yet the float
comparison does not stop there. -/
theorem mixed_timestamps_abort_eviction :
    cleanup_old_videos 10 20 mixedTable mixedDisk
      = ([], mixedTable, mixedDisk) ∧
    sumSizes (get_all_ready mixedTable) = 11 ∧
    leTarget 10 20 11 = false ∧
    (cleanup_old_videos 10 20 scenarioTable scenarioDisk).1 = ["h6"] ∧
    statusOf (cleanup_old_videos 10 20 scenarioTable scenarioDisk).2.1 "h6"
      = some .deleted ∧
    (cleanup_old_videos 10 20 scenarioTable scenarioDisk).2.2 = ["h3", "h2"] ∧
    sumSizes (get_all_ready
      (cleanup_old_videos 10 20 scenarioTable scenarioDisk).2.1) = 5 ∧
    (100 * (1073741824 : Int) ≤ 5368709120 * ((100 : Int) - 80)) ∧
    leTarget 5368709120 80 1073741824 = false := by
  decide

/-- Claim C4 counterexample: in a normal-mode pass the READY row of key hp
with access count 1000000 — above any plausible protection threshold — is
evicted all the same: its hash is returned, its row is marked deleted and
its file unlinked.  cleanup_old_videos consults no access-count threshold
at all (and takes no aggressive parameter). -/
theorem protected_row_evicted_anyway :
    (cleanup_old_videos 10 20 popularTable ["hp", "k3", "k2"]).1 = ["hp"] ∧
    statusOf (cleanup_old_videos 10 20 popularTable ["hp", "k3", "k2"]).2.1 "hp"
      = some .deleted ∧
    "hp" ∉ (cleanup_old_videos 10 20 popularTable ["hp", "k3", "k2"]).2.2 := by
  decide

/-- Claim C4 as amended: eviction is completely independent of access
counts — rewriting every row's access count arbitrarily changes neither
the list of evicted hashes nor the resulting disk contents — and
cleanup_old_videos has no aggressive parameter or mode. -/
theorem eviction_ignores_access_counts (m tf : Nat) (t : Table)
    (d : List String) (f : VideoRow → Nat) :
    (cleanup_old_videos m tf (setAccessCounts f t) d).1
      = (cleanup_old_videos m tf t d).1 ∧
    (cleanup_old_videos m tf (setAccessCounts f t) d).2.2
      = (cleanup_old_videos m tf t d).2.2 := by
  have hready : get_all_ready (setAccessCounts f t)
      = (get_all_ready t).map (fun r => { r with access_count := f r }) :=
    get_all_ready_map (fun r => { r with access_count := f r })
      (fun r => rfl) (fun r => rfl) t (fun r => rfl)
  have hsort : pySort (get_all_ready (setAccessCounts f t))
      = (pySort (get_all_ready t)).map
          (List.map (fun r => { r with access_count := f r })) := by
    rw [hready]
    exact pySort_map (fun r => { r with access_count := f r }) (fun r => rfl)
      (get_all_ready t)
  cases hps : pySort (get_all_ready t) with
  | none =>
      have hobs : pySort (get_all_ready (setAccessCounts f t)) = none := by
        rw [hsort, hps]; rfl
      rw [cleanup_sort_fail m tf t d hps, cleanup_sort_fail m tf _ d hobs]
      exact ⟨rfl, rfl⟩
  | some videos =>
      have hobs : pySort (get_all_ready (setAccessCounts f t))
          = some (videos.map (fun r => { r with access_count := f r })) := by
        rw [hsort, hps]; rfl
      rw [cleanup_sort_ok m tf t d videos hps,
        cleanup_sort_ok m tf (setAccessCounts f t) d _ hobs]
      have hsum : sumSizes (videos.map (fun r => { r with access_count := f r }))
          = sumSizes videos :=
        sumSizes_map (fun r => { r with access_count := f r }) (fun r => rfl) _
      rw [hsum]
      have hloop := evictLoop_map m tf (fun r => { r with access_count := f r })
        (fun v => rfl) (fun v => rfl) (sumSizes videos) videos t
        (setAccessCounts f t) d
      exact ⟨hloop.1, hloop.2.1⟩

/-- Claim C10: a READY row whose recorded file size is NULL or zero is
never touched by an eviction pass: its hash is never among the evicted
ones, its row survives unchanged in the resulting catalog, and its file
(when present) is not unlinked — whatever the size target.  NULL sizes are
already excluded by the get_all_ready query; zero sizes are skipped by the
loop. -/
theorem eviction_skips_sizeless_rows (m tf : Nat) (t : Table)
    (d : List String) (r : VideoRow) (hr : r ∈ t)
    (hz : r.file_size = none ∨ r.file_size = some 0)
    (hnd : (t.map VideoRow.hash).Nodup) :
    r.hash ∉ (cleanup_old_videos m tf t d).1 ∧
    r ∈ (cleanup_old_videos m tf t d).2.1 ∧
    (r.hash ∈ (cleanup_old_videos m tf t d).2.2 ↔ r.hash ∈ d) := by
  cases hps : pySort (get_all_ready t) with
  | none =>
      rw [cleanup_sort_fail m tf t d hps]
      exact ⟨by simp, hr, Iff.rfl⟩
  | some videos =>
      rw [cleanup_sort_ok m tf t d videos hps]
      have hnotdel :
          r.hash ∉ (evictLoop m tf (sumSizes videos) videos t d).1 := by
        intro hcontra
        rcases evictLoop_deleted_mem m tf _ _ t d r.hash hcontra with
          ⟨v, hv, hvh, hvs, _⟩
        have hvt : v ∈ t :=
          mem_of_mem_get_all_ready ((mem_pySort hps v).mp hv)
        have hveq : v = r := List.inj_on_of_nodup_map hnd hvt hr hvh
        rcases hz with h0 | h0 <;> rw [hveq, h0] at hvs <;> simp at hvs
      exact ⟨hnotdel,
        evictLoop_table_frame m tf _ _ t d r hr hnotdel,
        evictLoop_disk_frame m tf _ _ t d r.hash hnotdel⟩

/-- Witness for eviction_skips_sizeless_rows: with the zero-size row oldest
and the quota grossly exceeded, the pass still never touches it. -/
theorem eviction_skips_sizeless_rows_witness :
    zeroSizeRow ∈ [zeroSizeRow, scRow "big" 50 5] ∧
    (zeroSizeRow.file_size = none ∨ zeroSizeRow.file_size = some 0) ∧
    (([zeroSizeRow, scRow "big" 50 5] : Table).map VideoRow.hash).Nodup ∧
    (zeroSizeRow.hash
        ∉ (cleanup_old_videos 10 20 [zeroSizeRow, scRow "big" 50 5]
            ["z", "big"]).1 ∧
     zeroSizeRow
        ∈ (cleanup_old_videos 10 20 [zeroSizeRow, scRow "big" 50 5]
            ["z", "big"]).2.1 ∧
     (zeroSizeRow.hash
        ∈ (cleanup_old_videos 10 20 [zeroSizeRow, scRow "big" 50 5]
            ["z", "big"]).2.2 ↔ zeroSizeRow.hash ∈ ["z", "big"])) :=
  ⟨by decide, by decide, by decide,
   eviction_skips_sizeless_rows 10 20 [zeroSizeRow, scRow "big" 50 5]
     ["z", "big"] zeroSizeRow (by decide) (by decide) (by decide)⟩

/-- Claim C6: with the table keys distinct (the primary key guarantee),
the restore step re-enqueues exactly one task per pending/downloading row,
in created-at order; every pending or downloading row — in particular
every downloading one — is reset to pending in the resulting catalog, and
every other row is untouched. -/
theorem restore_requeues_every_interrupted_row (t : Table)
    (hnd : (t.map VideoRow.hash).Nodup) :
    (restore_pending_tasks t emptyQueue).1 = (get_pending_videos t).length ∧
    (restore_pending_tasks t emptyQueue).2.2.queue.map DownloadTask.video_hash
      = (get_pending_videos t).map VideoRow.hash ∧
    (∀ r ∈ t, (r.status = .pending ∨ r.status = .downloading) →
      { r with status := VideoStatus.pending }
        ∈ (restore_pending_tasks t emptyQueue).2.1) ∧
    (∀ r ∈ t, ¬(r.status = .pending ∨ r.status = .downloading) →
      r ∈ (restore_pending_tasks t emptyQueue).2.1) := by
  have hspec := restoreLoop_spec (get_pending_videos t) t emptyQueue
    (fun v hv => (hashPresent_iff t v.hash).mpr
      ⟨v, (mem_of_mem_get_pending hv).1, rfl⟩)
    (fun v _ hc => by simp [emptyQueue] at hc)
    (nodup_get_pending_hashes hnd)
  have htab := restoreLoop_table (get_pending_videos t) t emptyQueue
  refine ⟨hspec.1,
    by unfold restore_pending_tasks; rw [hspec.2.1]; simp [emptyQueue], ?_, ?_⟩
  · intro r hr hst
    have hin : r.hash ∈ (get_pending_videos t).map VideoRow.hash :=
      List.mem_map_of_mem _ (mem_get_pending_of_status hr hst)
    rw [show (restore_pending_tasks t emptyQueue).2.1
        = (restoreLoop (get_pending_videos t) t emptyQueue).2.1 from rfl, htab]
    exact foldl_update_mem_of_mem_hashes _ _ _ hr hin
  · intro r hr hst
    have hout : r.hash ∉ (get_pending_videos t).map VideoRow.hash := by
      intro hcontra
      rcases List.mem_map.mp hcontra with ⟨w, hw, hwh⟩
      rcases mem_of_mem_get_pending hw with ⟨hwt, hwst⟩
      have hweq : w = r := List.inj_on_of_nodup_map hnd hwt hr hwh
      exact hst (hweq ▸ hwst)
    rw [show (restore_pending_tasks t emptyQueue).2.1
        = (restoreLoop (get_pending_videos t) t emptyQueue).2.1 from rfl, htab]
    exact foldl_update_mem_of_not_mem_hashes _ _ _ hr hout

/-- Witness for restore_requeues_every_interrupted_row on a catalog with a
pending, a downloading, and a ready row. -/
theorem restore_requeues_every_interrupted_row_witness :
    (([pendingRow, downloadingRow, readyRow] : Table).map VideoRow.hash).Nodup ∧
    ((restore_pending_tasks [pendingRow, downloadingRow, readyRow]
        emptyQueue).1
      = (get_pending_videos [pendingRow, downloadingRow, readyRow]).length ∧
     (restore_pending_tasks [pendingRow, downloadingRow, readyRow]
        emptyQueue).2.2.queue.map DownloadTask.video_hash
      = (get_pending_videos [pendingRow, downloadingRow, readyRow]).map
          VideoRow.hash ∧
     (∀ r ∈ ([pendingRow, downloadingRow, readyRow] : Table),
        (r.status = .pending ∨ r.status = .downloading) →
          { r with status := VideoStatus.pending }
            ∈ (restore_pending_tasks [pendingRow, downloadingRow, readyRow]
                emptyQueue).2.1) ∧
     (∀ r ∈ ([pendingRow, downloadingRow, readyRow] : Table),
        ¬(r.status = .pending ∨ r.status = .downloading) →
          r ∈ (restore_pending_tasks [pendingRow, downloadingRow, readyRow]
                emptyQueue).2.1)) :=
  ⟨by decide,
   restore_requeues_every_interrupted_row [pendingRow, downloadingRow, readyRow]
     (by decide)⟩

end TubeCache
